import Mathlib

set_option maxHeartbeats 1000000
set_option maxRecDepth 8000

/- Verification development for the comparison and annotation engine of the
   excel diff highlighter (src/excel_diff_highlighter.py).

   Strings are modelled as lists of Unicode scalar values (Char), matching the
   spec's statement that comparison and indexing operate on code points.
   Python regular expressions appearing in the source are modelled by
   equivalent scanning functions; the character class \d is modelled as the
   ASCII decimal digits and \s by the standard Python whitespace set, and the
   trailing `.*$` of the two substitution patterns is modelled as matching the
   whole remainder (filenames are taken to be newline-free).  Version numbers
   (Python floats obtained from `float()` of a d+.d+ token) are modelled as
   exact rationals. -/

/-- Python whitespace characters: the set accepted by str.isspace and matched
by the regex class \s on str patterns. -/
def isPySpace (c : Char) : Bool :=
  [' ', '\t', '\n', '\x0b', '\x0c', '\r', '\x1c', '\x1d', '\x1e', '\x1f',
   '\x85', '\xa0', ' ', ' ', ' ', ' ', ' ', ' ',
   ' ', ' ', ' ', ' ', ' ', ' ', ' ',
   ' ', ' ', ' ', '　'].contains c

/-- ASCII decimal digits, modelling the regex class \d. -/
def isAsciiDigit (c : Char) : Bool :=
  48 ≤ c.toNat && c.toNat ≤ 57

/-- Value of a string of decimal digits, as produced by Python int()/float(). -/
def natOfDigits (ds : List Char) : Nat :=
  ds.foldl (fun n c => n * 10 + (c.toNat - 48)) 0

/-- Index of the last '.' in a name, used by pathlib's suffix computation. -/
def lastDotIdx : List Char → Option Nat
  | [] => none
  | c :: cs =>
    match lastDotIdx cs with
    | some i => some (i + 1)
    | none => if c = '.' then some 0 else none

/-- Path(filename).stem: drop the extension, where pathlib takes the suffix to
start at the last '.' provided it is neither the first nor the last character
of the name. -/
def stem (name : List Char) : List Char :=
  match lastDotIdx name with
  | some i => if 0 < i ∧ i < name.length - 1 then name.take i else name
  | none => name

/-- Does `[vV]\d+\.\d+` match at the head of the list?  Greedy \d+ followed by
a literal dot forces the first digit run to be maximal and to be followed by
'.' and at least one further digit. -/
def versionTokenAt : List Char → Bool
  | [] => false
  | c :: rest =>
    (c == 'v' || c == 'V') &&
    (decide (rest.takeWhile isAsciiDigit ≠ []) &&
      (match rest.dropWhile isAsciiDigit with
       | '.' :: r2 => decide ((r2.takeWhile isAsciiDigit) ≠ [])
       | _ => false))

/-- Does `[_\s]*[vV]\d+\.\d+.*$` match starting at the head of the list?
The leading `[_\s]*` must consume the whole run of separators (none of them
can be the required v/V), after which the version token must match; `.*$`
then consumes the rest. -/
def versionRunAt (cs : List Char) : Bool :=
  versionTokenAt (cs.dropWhile (fun c => c == '_' || isPySpace c))

/-- The substitution re.sub of pattern `[_\s]*[vV]\d+\.\d+.*$` with the empty
string: delete from the leftmost position where the pattern matches through
the end of the string. -/
def subVersionAux : List Char → List Char
  | [] => []
  | c :: cs => if versionRunAt (c :: cs) then [] else c :: subVersionAux cs

/-- One alternative of `(のコピー|\(\d+\)|copy|\s-\s*コピー)` matching at the head
of the list, with re.IGNORECASE applying to the ASCII word "copy". -/
def copyAltAt (cs : List Char) : Bool :=
  ( "のコピー".data).isPrefixOf cs ||
  (match cs with
   | '(' :: r =>
     decide (r.takeWhile isAsciiDigit ≠ []) &&
     (match r.dropWhile isAsciiDigit with
      | ')' :: _ => true
      | _ => false)
   | _ => false) ||
  (match cs with
   | c1 :: c2 :: c3 :: c4 :: _ =>
     (c1 == 'c' || c1 == 'C') && (c2 == 'o' || c2 == 'O') &&
     (c3 == 'p' || c3 == 'P') && (c4 == 'y' || c4 == 'Y')
   | _ => false) ||
  (match cs with
   | c1 :: '-' :: r =>
     isPySpace c1 && ( "コピー".data).isPrefixOf (r.dropWhile isPySpace)
   | _ => false)

/-- Does `\s*(のコピー|\(\d+\)|copy|\s-\s*コピー).*$` match starting at the head?
The greedy `\s*` backtracks, so every split of the leading whitespace run is
tried. -/
def copyRunAt (cs : List Char) : Bool :=
  (List.range ((cs.takeWhile isPySpace).length + 1)).any
    (fun k => copyAltAt (cs.drop k))

/-- re.sub of the copy-marker pattern: delete from the leftmost position where
it matches through the end of the string. -/
def subCopyAux : List Char → List Char
  | [] => []
  | c :: cs => if copyRunAt (c :: cs) then [] else c :: subCopyAux cs

/-- Python str.strip(): remove leading and trailing whitespace. -/
def pyStrip (cs : List Char) : List Char :=
  ((cs.dropWhile isPySpace).reverse.dropWhile isPySpace).reverse

/-- extract_base_filename: strip the extension, then the version token together
with everything after it, then (unconditionally) a trailing copy marker with
everything after it, and finally surrounding whitespace. -/
def extract_base_filename (filename : List Char) : List Char :=
  pyStrip (subCopyAux (subVersionAux (stem filename)))

/-- The search re.search of pattern `[vV](\d+\.\d+)` evaluated at the head of
the list: the captured group is the maximal digit run, the dot, and the
following maximal digit run; its float value is modelled exactly as a
rational. -/
def versionValueAt : List Char → Option ℚ
  | [] => none
  | c :: rest =>
    if c == 'v' || c == 'V' then
      let d1 := rest.takeWhile isAsciiDigit
      if d1 = [] then none
      else
        match rest.dropWhile isAsciiDigit with
        | '.' :: r2 =>
          let d2 := r2.takeWhile isAsciiDigit
          if d2 = [] then none
          else some (mkRat (natOfDigits d1 * 10 ^ d2.length + natOfDigits d2) (10 ^ d2.length))
        | _ => none
    else none

/-- Leftmost match of the version-number search. -/
def searchVersionValue : List Char → Option ℚ
  | [] => none
  | c :: cs =>
    match versionValueAt (c :: cs) with
    | some q => some q
    | none => searchVersionValue cs

/-- extract_version_number: the version number found in a filename, 0.0 when
there is none. -/
def extract_version_number (filename : List Char) : ℚ :=
  (searchVersionValue filename).getD 0

/-- A discovered file: the directory it was enumerated from and its filename.
Directory strings are taken as already normalized, so two paths are identical
exactly when directory and name agree. -/
structure FsFile where
  dir : List Char
  name : List Char
deriving DecidableEq

/-- str(Path(dir) / name): the joined path used for the identical-path check. -/
def pathOf (f : FsFile) : List Char :=
  f.dir ++ ( '/' :: f.name)

/-- The version of a discovered file, read from its filename. -/
def versionOf (f : FsFile) : ℚ :=
  extract_version_number f.name

/-- Python max(files, key=extract_version_number): the running best is replaced
only on a strictly greater key, so the first file attaining the maximum wins. -/
def maxByVersion : FsFile → List FsFile → FsFile
  | best, [] => best
  | best, f :: fs =>
    if versionOf best < versionOf f then maxByVersion f fs else maxByVersion best fs

/-- Representative selection inside one group (find_matching_file_pairs): the
newest version when any file carries a version greater than 0, otherwise the
first discovered file. -/
def selectRep (hd : FsFile) (tl : List FsFile) : FsFile :=
  if (hd :: tl).any (fun f => decide (0 < versionOf f)) then maxByVersion hd tl else hd

/-- Representative of a group list; groups are non-empty by construction. -/
def selectRepL : List FsFile → FsFile
  | [] => ⟨ [], []⟩
  | f :: fs => selectRep f fs

/-- Append a file to its group in an insertion-ordered association list,
mirroring a Python dict of lists. -/
def insertGroup (groups : List (List Char × List FsFile)) (key : List Char) (f : FsFile) :
    List (List Char × List FsFile) :=
  match groups with
  | [] => [(key, [f])]
  | (k, fs) :: rest =>
    if k = key then (k, fs ++ [f]) :: rest else (k, fs) :: insertGroup rest key f

/-- Look up a group by its base name. -/
def findGroup (b : List Char) : List (List Char × List FsFile) → Option (List FsFile)
  | [] => none
  | (k, fs) :: rest => if k = b then some fs else findGroup b rest

/-- Group a directory listing by extract_base_filename, skipping temporary
files (names starting with the reserved marker), in enumeration order. -/
def groupByBase (dir : List Char) (names : List (List Char)) :
    List (List Char × List FsFile) :=
  names.foldl
    (fun gs name =>
      if ( "~$".data).isPrefixOf name then gs
      else insertGroup gs (extract_base_filename name) ⟨ dir, name⟩)
    []

/-- Python string comparison: lexicographic on code points. -/
def leStr : List Char → List Char → Bool
  | [], _ => true
  | _ :: _, [] => false
  | a :: as, b :: bs =>
    if a.toNat < b.toNat then true
    else if b.toNat < a.toNat then false
    else leStr as bs

/-- Insert into an ascending list (used to model Python sorted on the distinct
base names). -/
def insertSorted (x : List Char) : List (List Char) → List (List Char)
  | [] => [x]
  | y :: ys => if leStr x y then x :: y :: ys else y :: insertSorted x ys

/-- Python sorted for lists of strings. -/
def sortStrings (l : List (List Char)) : List (List Char) :=
  l.foldr insertSorted []

/-- Input to find_matching_file_pairs: existence of the two directories, their
(normalized) path strings, and the glob enumeration of each directory, an
external contract. -/
structure MatchInput where
  oldDirExists : Bool
  newDirExists : Bool
  oldDir : List Char
  newDir : List Char
  oldNames : List (List Char)
  newNames : List (List Char)
deriving DecidableEq

/-- The matching loop of find_matching_file_pairs: for every base name of the
old side that also occurs on the new side, pick the two representatives and
emit the pair when their paths differ. -/
def pairsOf (oldGroups newGroups : List (List Char × List FsFile)) :
    List (List Char × FsFile × FsFile) :=
  oldGroups.filterMap
    (fun g =>
      match findGroup g.1 newGroups with
      | none => none
      | some nfs =>
        let oldFile := selectRepL g.2
        let newFile := selectRepL nfs
        if pathOf oldFile ≠ pathOf newFile then some (g.1, oldFile, newFile) else none)

/-- The unmatched-file report of find_matching_file_pairs for one side: base
names of the side that are not among the matched bases, sorted, each
contributing its group's original filenames in discovery order. -/
def unmatchedFilesOf (groups : List (List Char × List FsFile))
    (pairs : List (List Char × FsFile × FsFile)) : List (List Char) :=
  ((sortStrings ((groups.map (fun g => g.1)).filter
      (fun b => decide (¬ b ∈ pairs.map (fun p => p.1))))).map
    (fun b => ((findGroup b groups).getD []).map (fun f => f.name))).flatten

/-- find_matching_file_pairs: empty results when either directory is missing;
otherwise group both sides by base name, emit representative pairs, and report
the unmatched filenames of both sides. -/
def find_matching_file_pairs (inp : MatchInput) :
    List (List Char × FsFile × FsFile) × List (List Char) × List (List Char) :=
  if inp.oldDirExists = false then ([], [], [])
  else if inp.newDirExists = false then ([], [], [])
  else
    let oldGroups := groupByBase inp.oldDir inp.oldNames
    let newGroups := groupByBase inp.newDir inp.newNames
    let pairs := pairsOf oldGroups newGroups
    (pairs, unmatchedFilesOf oldGroups pairs, unmatchedFilesOf newGroups pairs)

/-- Spec-side pair emission, following the claim's words: a matched pair is
emitted for a base name present on both sides unless the two representatives
resolve to the identical path. -/
def pairsSpec (oldGroups newGroups : List (List Char × List FsFile)) :
    List (List Char × FsFile × FsFile) :=
  oldGroups.filterMap
    (fun g =>
      match findGroup g.1 newGroups with
      | none => none
      | some nfs =>
        if pathOf (selectRepL g.2) = pathOf (selectRepL nfs) then none
        else some (g.1, selectRepL g.2, selectRepL nfs))

/-- Spec-side unmatched report, following the amended claim's words: the base
names of the side for which no pair was emitted, ordered by sorted base name,
each contributing its group's original filenames in discovery order. -/
def unmatchedFilesSpec (groups : List (List Char × List FsFile))
    (pairs : List (List Char × FsFile × FsFile)) : List (List Char) :=
  ((sortStrings ((groups.map (fun g => g.1)).filter
      (fun b => pairs.all (fun p => decide (p.1 ≠ b))))).map
    (fun b => ((findGroup b groups).getD []).map (fun f => f.name))).flatten

/-- Spec-side first-maximum value: the maximal version within a group. -/
def maxVersionVal (hd : FsFile) (tl : List FsFile) : ℚ :=
  tl.foldl (fun m f => max m (versionOf f)) (versionOf hd)

/-- One atomic step of an edit script between two character sequences. -/
inductive Edit where
  | keep (c : Char)
  | del (c : Char)
  | ins (c : Char)
deriving DecidableEq

/-- Is the step a keep? -/
def isKeepE : Edit → Bool
  | .keep _ => true
  | _ => false

/-- Is the step a deletion? -/
def isDelE : Edit → Bool
  | .del _ => true
  | _ => false

/-- Is the step an insertion? -/
def isInsE : Edit → Bool
  | .ins _ => true
  | _ => false

/-- Number of non-keep steps of a script: its edit distance. -/
def editCost (es : List Edit) : Nat :=
  es.countP (fun e => ! isKeepE e)

/-- Modelled from the spec: the minimal-edit (LCS-based) character alignment
that the spec ascribes to the external difflib.SequenceMatcher, which is not
part of this repository.  Fuel-indexed so that the recursion is structural;
the fuel is always sufficient when the function is used through diffScript. -/
def diffScriptF : Nat → List Char → List Char → List Edit
  | 0, _, _ => []
  | _ + 1, [], ys => ys.map Edit.ins
  | f + 1, x :: xs, [] => Edit.del x :: diffScriptF f xs []
  | f + 1, x :: xs, y :: ys =>
    if x = y then Edit.keep x :: diffScriptF f xs ys
    else
      let d := Edit.del x :: diffScriptF f xs (y :: ys)
      let i := Edit.ins y :: diffScriptF f (x :: xs) ys
      if editCost d ≤ editCost i then d else i

/-- Minimal edit script between two character sequences. -/
def diffScript (a b : List Char) : List Edit :=
  diffScriptF (a.length + b.length + 1) a b

/-- Opcode tags, as in the spec: equal, insert, delete, replace. -/
inductive Tag where
  | eq
  | ins
  | del
  | rep
deriving DecidableEq

/-- One opcode of the alignment: a tag together with the half-open ranges it
covers in the old string ([i1, i2)) and in the new string ([j1, j2)). -/
structure Opcode where
  tag : Tag
  i1 : Nat
  i2 : Nat
  j1 : Nat
  j2 : Nat
deriving DecidableEq

/-- Modelled from the spec: turn an edit script into maximal-run opcodes, as
get_opcodes of the external difflib.SequenceMatcher presents its alignment.
A maximal run of keeps becomes an equal opcode; a maximal run of non-keeps
becomes a replace opcode when it mixes deletions and insertions, an insert
opcode when it only inserts, and a delete opcode when it only deletes.
Fuel-indexed for structural recursion; the fuel is sufficient whenever it
exceeds the script length. -/
def opcodesAuxF : Nat → Nat → Nat → List Edit → List Opcode
  | 0, _, _, _ => []
  | _ + 1, _, _, [] => []
  | f + 1, i, j, e :: es =>
    let k := isKeepE e
    let run := e :: es.takeWhile (fun x => isKeepE x = k)
    let rest := es.dropWhile (fun x => isKeepE x = k)
    let nd := run.countP isDelE
    let ni := run.countP isInsE
    let nk := run.countP isKeepE
    let op : Opcode :=
      if k then ⟨ .eq, i, i + nk, j, j + nk⟩
      else if nd ≠ 0 ∧ ni ≠ 0 then ⟨ .rep, i, i + nd, j, j + ni⟩
      else if ni ≠ 0 then ⟨ .ins, i, i, j, j + ni⟩
      else ⟨ .del, i, i + nd, j, j⟩
    op :: opcodesAuxF f (i + nd + nk) (j + ni + nk) rest

/-- The opcodes of the alignment of two character sequences. -/
def get_opcodes (a b : List Char) : List Opcode :=
  opcodesAuxF ((diffScript a b).length + 1) 0 0 (diffScript a b)

/-- The diff type reported by find_char_differences. -/
inductive DiffType where
  | equal
  | insert
  | delete
  | replace
deriving DecidableEq

/-- Accumulator of the opcode loop of find_char_differences: the differences
list and the set of seen diff types, the latter as one flag per possible
element. -/
structure DiffAcc where
  differences : List (Nat × Nat)
  hasIns : Bool
  hasDel : Bool
  hasRep : Bool
deriving DecidableEq

/-- One iteration of the opcode loop of find_char_differences: insert and
replace opcodes append their new-string range to the differences and mark
their type, delete opcodes only mark their type, equal opcodes do nothing. -/
def processOpcode (acc : DiffAcc) (op : Opcode) : DiffAcc :=
  match op.tag with
  | .ins => ⟨ acc.differences ++ [(op.j1, op.j2)], true, acc.hasDel, acc.hasRep⟩
  | .del => ⟨ acc.differences, acc.hasIns, true, acc.hasRep⟩
  | .rep => ⟨ acc.differences ++ [(op.j1, op.j2)], acc.hasIns, acc.hasDel, true⟩
  | .eq => acc

/-- find_char_differences: equal with no spans for identical strings;
otherwise collect the new-string ranges of insert and replace opcodes and
classify the diff type with precedence replace, then insert, then delete. -/
def find_char_differences (old_text new_text : List Char) :
    List (Nat × Nat) × DiffType :=
  if old_text = new_text then ([], DiffType.equal)
  else
    let acc := (get_opcodes old_text new_text).foldl processOpcode ⟨ [], false, false, false⟩
    if acc.hasRep then (acc.differences, DiffType.replace)
    else if acc.hasIns then (acc.differences, DiffType.insert)
    else if acc.hasDel then (acc.differences, DiffType.delete)
    else (acc.differences, DiffType.equal)

/-- The new-string range carried by an insert or replace opcode, none for the
other tags. -/
def spanOf? (op : Opcode) : Option (Nat × Nat) :=
  match op.tag with
  | Tag.ins => some (op.j1, op.j2)
  | Tag.rep => some (op.j1, op.j2)
  | _ => none

/-- A styled text run: highlighted (the configured diff color) or normal. -/
structure StyledRun where
  highlighted : Bool
  text : List Char
deriving DecidableEq

/-- The rich-text construction loop of apply_blue_color_to_differences: walk
the new text with a cursor; before each span emit a normal run for a non-empty
gap, for each non-empty span emit a highlighted run, and after the last span
emit a normal run for any remainder. -/
def annotateRuns (new_text : List Char) : Nat → List (Nat × Nat) → List StyledRun
  | current_pos, [] =>
    if current_pos < new_text.length then [⟨ false, new_text.drop current_pos⟩] else []
  | current_pos, (s, e) :: rest =>
    (if current_pos < s then
       [(⟨ false, (new_text.drop current_pos).take (s - current_pos)⟩ : StyledRun)]
     else []) ++
    (if s < e then [(⟨ true, (new_text.drop s).take (e - s)⟩ : StyledRun)] else []) ++
    annotateRuns new_text e rest

/-- Concatenation of the texts of a run sequence. -/
def runsText (runs : List StyledRun) : List Char :=
  (runs.map (fun r => r.text)).flatten

/-- Spans are chained from a cursor position: starts do not precede the
cursor, each span is ordered, and the rest is chained from its end. -/
def spansChained : Nat → List (Nat × Nat) → Prop
  | _, [] => True
  | c, (s, e) :: rest => c ≤ s ∧ s ≤ e ∧ spansChained e rest

/-- Maximum number of characters of a cell value stored in a change record. -/
def MAX_CELL_VALUE_LENGTH : Nat := 100

/-- Truncation applied when recording a cell value: values longer than the
maximum are cut to it and receive the truncation marker. -/
def truncateValue (s : List Char) : List Char :=
  s.take MAX_CELL_VALUE_LENGTH ++
    (if MAX_CELL_VALUE_LENGTH < s.length then ( "...".data) else [])

/-- A change-log record of one cell; the sheet name and cell address fields
are presentational pass-throughs and are omitted from the model. -/
structure ChangeRecord where
  oldVal : List Char
  newVal : List Char
  type : DiffType
deriving DecidableEq

/-- The per-cell recording step of compare_and_highlight_excel: skip when both
texts are empty; when they differ, run the differ and annotate when the new
text is non-empty, otherwise record a deletion without touching the cell.
The boolean reports whether the styled-run annotation was invoked. -/
def recordCell (old_value new_value : List Char) : Option ChangeRecord × Bool :=
  if old_value = [] ∧ new_value = [] then (none, false)
  else if old_value ≠ new_value then
    if new_value ≠ [] then
      (some ⟨ truncateValue old_value, truncateValue new_value,
              (find_char_differences old_value new_value).2⟩, true)
    else
      (some ⟨ truncateValue old_value, truncateValue new_value, DiffType.delete⟩, false)
  else (none, false)

theorem runsText_nil : runsText [] = [] := rfl

theorem runsText_append (a b : List StyledRun) :
    runsText (a ++ b) = runsText a ++ runsText b := by
  simp [runsText]

theorem runsText_mk (b : Bool) (t : List Char) : runsText [⟨ b, t⟩] = t := by
  simp [runsText]

theorem length_dropWhile_le (p : α → Bool) :
    ∀ l : List α, (l.dropWhile p).length ≤ l.length := by
  intro l
  induction l with
  | nil => simp
  | cons a l ih =>
    rw [List.dropWhile_cons]
    split
    · exact Nat.le_trans ih (Nat.le_succ _)
    · exact Nat.le_refl _

theorem take_drop_glue {l : List Char} {a b : Nat} (h : a ≤ b) :
    (l.drop a).take (b - a) ++ l.drop b = l.drop a := by
  have hdrop : l.drop b = (l.drop a).drop (b - a) := by
    rw [List.drop_drop, Nat.add_sub_cancel' h]
  rw [hdrop, List.take_append_drop]

theorem spansChained_mono {c c' : Nat} {l : List (Nat × Nat)}
    (h : spansChained c l) (hc : c' ≤ c) : spansChained c' l := by
  cases l with
  | nil => trivial
  | cons p rest =>
    obtain ⟨s, e⟩ := p
    obtain ⟨h1, h2, h3⟩ := h
    exact ⟨Nat.le_trans hc h1, h2, h3⟩

theorem runsText_annotateRuns (new_text : List Char) :
    ∀ (spans : List (Nat × Nat)) (cur : Nat), spansChained cur spans →
      runsText (annotateRuns new_text cur spans) = new_text.drop cur := by
  intro spans
  induction spans with
  | nil =>
    intro cur _
    by_cases h : cur < new_text.length
    · simp [annotateRuns, runsText, h]
    · simp [annotateRuns, runsText, h, List.drop_eq_nil_of_le (Nat.le_of_not_lt h)]
  | cons p rest ih =>
    obtain ⟨s, e⟩ := p
    intro cur hch
    obtain ⟨h1, h2, h3⟩ := hch
    have hrest := ih e h3
    simp only [annotateRuns]
    rw [runsText_append, runsText_append, hrest]
    rcases Nat.lt_or_ge cur s with hcs | hcs
    · rcases Nat.lt_or_ge s e with hse | hse
      · rw [if_pos hcs, if_pos hse, runsText_mk, runsText_mk, List.append_assoc,
          take_drop_glue h2, take_drop_glue (Nat.le_of_lt hcs)]
      · have hse' : s = e := Nat.le_antisymm h2 hse
        subst hse'
        rw [if_pos hcs, if_neg (Nat.lt_irrefl s), runsText_mk, runsText_nil,
          List.append_nil, take_drop_glue (Nat.le_of_lt hcs)]
    · have hcs' : cur = s := Nat.le_antisymm h1 hcs
      subst hcs'
      rcases Nat.lt_or_ge cur e with hse | hse
      · rw [if_neg (Nat.lt_irrefl cur), if_pos hse, runsText_nil, runsText_mk,
          List.nil_append, take_drop_glue h2]
      · have hse' : cur = e := Nat.le_antisymm h2 hse
        subst hse'
        rw [if_neg (Nat.lt_irrefl cur), if_neg (Nat.lt_irrefl cur)]
        simp [runsText_nil]

theorem spansChained_opcodesAuxF :
    ∀ (f i j : Nat) (es : List Edit) (c : Nat), c ≤ j →
      spansChained c ((opcodesAuxF f i j es).filterMap spanOf?) := by
  intro f
  induction f with
  | zero =>
    intro i j es c _
    simp [opcodesAuxF, spansChained]
  | succ f ih =>
    intro i j es c hc
    cases es with
    | nil => simp [opcodesAuxF, spansChained]
    | cons e es =>
      simp only [opcodesAuxF]
      split
      · rw [List.filterMap_cons_none (by rfl)]
        exact ih _ _ _ _ (by omega)
      · split
        · rw [List.filterMap_cons_some (by rfl)]
          dsimp only
          exact ⟨hc, by omega, ih _ _ _ _ (by omega)⟩
        · split
          · rw [List.filterMap_cons_some (by rfl)]
            dsimp only
            exact ⟨hc, by omega, ih _ _ _ _ (by omega)⟩
          · rw [List.filterMap_cons_none (by rfl)]
            exact ih _ _ _ _ (by omega)

theorem foldl_proc_differences (ops : List Opcode) (acc : DiffAcc) :
    (ops.foldl processOpcode acc).differences = acc.differences ++ ops.filterMap spanOf? := by
  induction ops generalizing acc with
  | nil => simp
  | cons op ops ihop =>
    rw [List.foldl_cons, ihop]
    obtain ⟨tag, i1, i2, j1, j2⟩ := op
    cases tag <;> simp [processOpcode, spanOf?, List.filterMap_cons, List.append_assoc]

theorem foldl_proc_hasRep (ops : List Opcode) (acc : DiffAcc) :
    (ops.foldl processOpcode acc).hasRep =
      (acc.hasRep || ops.any (fun op => decide (op.tag = Tag.rep))) := by
  induction ops generalizing acc with
  | nil => simp
  | cons op ops ihop =>
    rw [List.foldl_cons, ihop]
    obtain ⟨tag, i1, i2, j1, j2⟩ := op
    cases tag <;> simp [processOpcode]

theorem foldl_proc_hasIns (ops : List Opcode) (acc : DiffAcc) :
    (ops.foldl processOpcode acc).hasIns =
      (acc.hasIns || ops.any (fun op => decide (op.tag = Tag.ins))) := by
  induction ops generalizing acc with
  | nil => simp
  | cons op ops ihop =>
    rw [List.foldl_cons, ihop]
    obtain ⟨tag, i1, i2, j1, j2⟩ := op
    cases tag <;> simp [processOpcode]

theorem foldl_proc_hasDel (ops : List Opcode) (acc : DiffAcc) :
    (ops.foldl processOpcode acc).hasDel =
      (acc.hasDel || ops.any (fun op => decide (op.tag = Tag.del))) := by
  induction ops generalizing acc with
  | nil => simp
  | cons op ops ihop =>
    rw [List.foldl_cons, ihop]
    obtain ⟨tag, i1, i2, j1, j2⟩ := op
    cases tag <;> simp [processOpcode]

theorem find_char_differences_eq (old_text new_text : List Char)
    (h : old_text ≠ new_text) :
    find_char_differences old_text new_text =
      ((get_opcodes old_text new_text).filterMap spanOf?,
        if (get_opcodes old_text new_text).any (fun op => decide (op.tag = Tag.rep)) then
          DiffType.replace
        else if (get_opcodes old_text new_text).any (fun op => decide (op.tag = Tag.ins)) then
          DiffType.insert
        else if (get_opcodes old_text new_text).any (fun op => decide (op.tag = Tag.del)) then
          DiffType.delete
        else DiffType.equal) := by
  unfold find_char_differences
  rw [if_neg h]
  simp only [foldl_proc_differences, foldl_proc_hasRep, foldl_proc_hasIns, foldl_proc_hasDel,
    Bool.false_or, List.nil_append]
  by_cases h1 : ((get_opcodes old_text new_text).any fun op => decide (op.tag = Tag.rep)) = true <;>
    by_cases h2 : ((get_opcodes old_text new_text).any fun op => decide (op.tag = Tag.ins)) = true <;>
    by_cases h3 : ((get_opcodes old_text new_text).any fun op => decide (op.tag = Tag.del)) = true <;>
    simp [h1, h2, h3]

theorem eq_of_allKeep_diffScriptF :
    ∀ (f : Nat) (a b : List Char), a.length + b.length < f →
      (∀ e ∈ diffScriptF f a b, isKeepE e = true) → a = b := by
  intro f
  induction f with
  | zero => intro a b h; exact absurd h (Nat.not_lt_zero _)
  | succ f ih =>
    intro a b hlen hall
    cases a with
    | nil =>
      cases b with
      | nil => rfl
      | cons y ys =>
        have hmem : Edit.ins y ∈ diffScriptF (f + 1) [] (y :: ys) := by
          simp [diffScriptF]
        have hh := hall _ hmem
        simp [isKeepE] at hh
    | cons x xs =>
      cases b with
      | nil =>
        have hmem : Edit.del x ∈ diffScriptF (f + 1) (x :: xs) [] := by
          simp [diffScriptF]
        have hh := hall _ hmem
        simp [isKeepE] at hh
      | cons y ys =>
        by_cases hxy : x = y
        · subst hxy
          have htail : ∀ e ∈ diffScriptF f xs ys, isKeepE e = true := by
            intro e he
            apply hall e
            simp only [diffScriptF, if_pos rfl]
            exact List.mem_cons_of_mem _ he
          have hxsys : xs = ys := by
            apply ih xs ys ?_ htail
            simp only [List.length_cons] at hlen
            omega
          rw [hxsys]
        · exfalso
          simp only [diffScriptF, if_neg hxy] at hall
          by_cases hcost : editCost (Edit.del x :: diffScriptF f xs (y :: ys)) ≤
              editCost (Edit.ins y :: diffScriptF f (x :: xs) ys)
          · rw [if_pos hcost] at hall
            have hh := hall _ (List.mem_cons_self _ _)
            simp [isKeepE] at hh
          · rw [if_neg hcost] at hall
            have hh := hall _ (List.mem_cons_self _ _)
            simp [isKeepE] at hh

theorem allKeep_of_opcodes_eq :
    ∀ (f : Nat) (es : List Edit) (i j : Nat), es.length < f →
      (∀ op ∈ opcodesAuxF f i j es, op.tag = Tag.eq) →
      ∀ e ∈ es, isKeepE e = true := by
  intro f
  induction f with
  | zero => intro es i j h; exact absurd h (Nat.not_lt_zero _)
  | succ f ih =>
    intro es i j hlen hall
    cases es with
    | nil => intro e he; simp at he
    | cons e0 es =>
      simp only [opcodesAuxF] at hall
      by_cases hk : isKeepE e0 = true
      · rw [if_pos hk] at hall
        have htail :
            ∀ e ∈ es.dropWhile (fun x => decide (isKeepE x = isKeepE e0)), isKeepE e = true := by
          apply ih _ _ _ ?_ (fun op hop => hall op (List.mem_cons_of_mem _ hop))
          have hle := length_dropWhile_le (fun x => decide (isKeepE x = isKeepE e0)) es
          simp only [List.length_cons] at hlen
          omega
        intro e he
        rcases List.mem_cons.mp he with he0 | hes
        · rw [he0]; exact hk
        · have hsplit : e ∈ es.takeWhile (fun x => decide (isKeepE x = isKeepE e0)) ++
              es.dropWhile (fun x => decide (isKeepE x = isKeepE e0)) := by
            rw [List.takeWhile_append_dropWhile]
            exact hes
          rcases List.mem_append.mp hsplit with h1 | h2
          · have hp := List.mem_takeWhile_imp h1
            rw [of_decide_eq_true hp, hk]
          · exact htail e h2
      · rw [if_neg hk] at hall
        exfalso
        have h0 := hall _ (List.mem_cons_self _ _)
        split at h0
        · simp at h0
        · split at h0
          · simp at h0
          · simp at h0

theorem diff_kind_ne_equal (old_text new_text : List Char) (h : old_text ≠ new_text) :
    (find_char_differences old_text new_text).2 ≠ DiffType.equal := by
  rw [find_char_differences_eq _ _ h]
  by_cases hr : (get_opcodes old_text new_text).any (fun op => decide (op.tag = Tag.rep)) = true
  · simp [hr]
  · by_cases hi : (get_opcodes old_text new_text).any (fun op => decide (op.tag = Tag.ins)) = true
    · simp [hr, hi]
    · by_cases hd : (get_opcodes old_text new_text).any
          (fun op => decide (op.tag = Tag.del)) = true
      · simp [hr, hi, hd]
      · exfalso
        apply h
        have halleq : ∀ op ∈ get_opcodes old_text new_text, op.tag = Tag.eq := by
          intro op hop
          have hr' := List.any_eq_false.mp (Bool.eq_false_iff.mpr hr) op hop
          have hi' := List.any_eq_false.mp (Bool.eq_false_iff.mpr hi) op hop
          have hd' := List.any_eq_false.mp (Bool.eq_false_iff.mpr hd) op hop
          cases htag : op.tag
          · rfl
          · exact absurd (decide_eq_true (by rw [htag])) hi'
          · exact absurd (decide_eq_true (by rw [htag])) hd'
          · exact absurd (decide_eq_true (by rw [htag])) hr'
        have hkeep : ∀ e ∈ diffScript old_text new_text, isKeepE e = true :=
          allKeep_of_opcodes_eq ((diffScript old_text new_text).length + 1) _ 0 0
            (Nat.lt_succ_self _) halleq
        exact eq_of_allKeep_diffScriptF (old_text.length + new_text.length + 1) _ _
          (Nat.lt_succ_self _) hkeep

theorem versionValueAt_nonneg :
    ∀ (cs : List Char) (q : ℚ), versionValueAt cs = some q → 0 ≤ q := by
  intro cs q h
  cases cs with
  | nil => simp [versionValueAt] at h
  | cons c rest =>
    simp only [versionValueAt] at h
    repeat' split at h
    all_goals try simp at h
    all_goals rw [← h]; exact Rat.mkRat_nonneg (by positivity) _

theorem extract_version_number_nonneg (filename : List Char) :
    0 ≤ extract_version_number filename := by
  unfold extract_version_number
  induction filename with
  | nil => simp [searchVersionValue]
  | cons c cs ih =>
    simp only [searchVersionValue]
    cases hv : versionValueAt (c :: cs) with
    | none => exact ih
    | some q => simpa using versionValueAt_nonneg _ _ hv

theorem le_foldl_maxv : ∀ (l : List FsFile) (m : ℚ),
    m ≤ l.foldl (fun acc f => max acc (versionOf f)) m := by
  intro l
  induction l with
  | nil => intro m; exact le_refl m
  | cons f fs ih =>
    intro m
    rw [List.foldl_cons]
    exact le_trans (le_max_left _ _) (ih _)

theorem find?_maxByVersion :
    ∀ (tl : List FsFile) (hd : FsFile) (m : ℚ), m = maxVersionVal hd tl →
      (hd :: tl).find? (fun f => decide (versionOf f = m)) = some (maxByVersion hd tl) := by
  intro tl
  induction tl with
  | nil =>
    intro hd m hm
    rw [maxVersionVal, List.foldl_nil] at hm
    subst hm
    rw [maxByVersion]
    exact List.find?_cons_of_pos _ (by simp)
  | cons f fs ih =>
    intro hd m hm
    rw [maxVersionVal, List.foldl_cons] at hm
    by_cases hlt : versionOf hd < versionOf f
    · rw [max_eq_right (le_of_lt hlt)] at hm
      have hm' : m = maxVersionVal f fs := hm
      have hfle : versionOf f ≤ m := by rw [hm']; exact le_foldl_maxv fs _
      have hne : ¬ (versionOf hd = m) := ne_of_lt (lt_of_lt_of_le hlt hfle)
      rw [List.find?_cons_of_neg _ (by simpa using hne), maxByVersion, if_pos hlt]
      exact ih f m hm'
    · rw [max_eq_left (le_of_not_lt hlt)] at hm
      have hm' : m = maxVersionVal hd fs := hm
      have ihh := ih hd m hm'
      rw [maxByVersion, if_neg hlt]
      by_cases hp : versionOf hd = m
      · rw [List.find?_cons_of_pos _ (by simpa using hp)] at ihh
        rw [List.find?_cons_of_pos _ (by simpa using hp)]
        exact ihh
      · rw [List.find?_cons_of_neg _ (by simpa using hp)] at ihh
        rw [List.find?_cons_of_neg _ (by simpa using hp)]
        have hhd_le : versionOf hd ≤ m := by rw [hm']; exact le_foldl_maxv fs _
        have hfp : ¬ (versionOf f = m) := by
          intro hfm
          exact hp (le_antisymm hhd_le (hfm ▸ le_of_not_lt hlt))
        rw [List.find?_cons_of_neg _ (by simpa using hfp)]
        exact ihh

theorem maxByVersion_eq_head :
    ∀ (tl : List FsFile) (hd : FsFile), (∀ f ∈ tl, versionOf f ≤ versionOf hd) →
      maxByVersion hd tl = hd := by
  intro tl
  induction tl with
  | nil => intro hd _; rfl
  | cons f fs ih =>
    intro hd hall
    rw [maxByVersion, if_neg (not_lt.mpr (hall f (List.mem_cons_self f fs)))]
    exact ih hd (fun g hg => hall g (List.mem_cons_of_mem _ hg))

theorem selectRep_eq_maxByVersion (hd : FsFile) (tl : List FsFile) :
    selectRep hd tl = maxByVersion hd tl := by
  unfold selectRep
  split
  · rfl
  · rename_i hany
    have hall : ∀ f ∈ hd :: tl, versionOf f = 0 := by
      intro f hf
      have h1 := List.any_eq_false.mp (Bool.eq_false_iff.mpr hany) f hf
      have h2 : ¬ (0 < versionOf f) := fun hh => h1 (decide_eq_true hh)
      exact le_antisymm (le_of_not_lt h2) (extract_version_number_nonneg f.name)
    have hmax : maxByVersion hd tl = hd := by
      apply maxByVersion_eq_head
      intro f hf
      rw [hall f (List.mem_cons_of_mem _ hf), hall hd (List.mem_cons_self _ _)]
    exact hmax.symm

theorem filterMap_congr_fun {α β : Type} (f g : α → Option β) (l : List α)
    (h : ∀ a, f a = g a) : l.filterMap f = l.filterMap g := by
  induction l with
  | nil => rfl
  | cons a l ih => rw [List.filterMap_cons, List.filterMap_cons, h a, ih]

theorem pairsSpec_eq_pairsOf (og ng : List (List Char × List FsFile)) :
    pairsSpec og ng = pairsOf og ng := by
  unfold pairsSpec pairsOf
  apply filterMap_congr_fun
  intro g
  cases hfg : findGroup g.1 ng with
  | none => rfl
  | some nfs =>
    by_cases hp : pathOf (selectRepL g.2) = pathOf (selectRepL nfs)
    · simp [hp]
    · simp [hp]

theorem all_ne_eq_not_mem (b : List Char) (pairs : List (List Char × FsFile × FsFile)) :
    (pairs.all fun p => decide (p.1 ≠ b)) = decide (¬ b ∈ pairs.map (fun p => p.1)) := by
  induction pairs with
  | nil => rfl
  | cons p ps ih =>
    rw [List.map_cons, List.all_cons, ih]
    by_cases hb : p.1 = b
    · subst hb
      rw [decide_eq_false (fun hne : p.1 ≠ p.1 => hne rfl), Bool.false_and,
        decide_eq_false (fun hn : ¬ p.1 ∈ p.1 :: ps.map (fun p => p.1) =>
          hn (List.mem_cons_self _ _))]
    · rw [decide_eq_true hb, Bool.true_and]
      refine decide_eq_decide.mpr ?_
      constructor
      · intro hnm hm
        rcases List.mem_cons.mp hm with he | hm2
        · exact hb he.symm
        · exact hnm hm2
      · intro hnm hm
        exact hnm (List.mem_cons_of_mem _ hm)

theorem unmatchedFilesSpec_eq (groups : List (List Char × List FsFile))
    (pairs : List (List Char × FsFile × FsFile)) :
    unmatchedFilesSpec groups pairs = unmatchedFilesOf groups pairs := by
  unfold unmatchedFilesSpec unmatchedFilesOf
  rw [List.filter_congr (fun b _ => all_ne_eq_not_mem b pairs)]

/-- Claim C1: round-trip law.  For all strings old and new, annotating new
with the spans returned by the differ — a normal run for each non-empty gap
before a span, a highlighted run for each non-empty span, and a trailing
normal run for any remainder — produces runs whose concatenated texts equal
new exactly. -/
theorem C1_round_trip (old_text new_text : List Char) :
    runsText (annotateRuns new_text 0 (find_char_differences old_text new_text).1) =
      new_text := by
  have hch : spansChained 0 (find_char_differences old_text new_text).1 := by
    by_cases h : old_text = new_text
    · simp [find_char_differences, h, spansChained]
    · rw [find_char_differences_eq _ _ h]
      exact spansChained_opcodesAuxF ((diffScript old_text new_text).length + 1) 0 0
        (diffScript old_text new_text) 0 (Nat.le_refl 0)
  have hrt := runsText_annotateRuns new_text _ 0 hch
  simpa using hrt

/-- Claim C2: representative selection of the pair matcher.  On every side the
chosen representative is the first-listed file attaining the maximal version
number (ties broken by discovery order); a group whose files all carry version
0 yields its first discovered file; and on the concrete inputs of the claim
the matched pair is (A_v2.0.xlsx, A_v3.0.xlsx). -/
theorem C2_representative_selection :
    (∀ (hd : FsFile) (tl : List FsFile),
      (hd :: tl).find? (fun f => decide (versionOf f = maxVersionVal hd tl)) =
        some (selectRep hd tl)) ∧
    (∀ (hd : FsFile) (tl : List FsFile), (∀ f ∈ hd :: tl, versionOf f = 0) →
      selectRep hd tl = hd) ∧
    (find_matching_file_pairs
        ⟨ true, true, "old".data, "new".data,
          [ "A_v1.0.xlsx".data, "A_v2.0.xlsx".data], [ "A_v3.0.xlsx".data]⟩).1 =
      [( "A".data, ⟨ "old".data, "A_v2.0.xlsx".data⟩, ⟨ "new".data, "A_v3.0.xlsx".data⟩)] := by
  refine ⟨fun hd tl => ?_, fun hd tl hall => ?_, by decide⟩
  · rw [selectRep_eq_maxByVersion]
    exact find?_maxByVersion tl hd _ rfl
  · unfold selectRep
    have hno : ¬ ((hd :: tl).any (fun f => decide (0 < versionOf f)) = true) := by
      intro hc
      obtain ⟨f, hf, hp⟩ := List.any_eq_true.mp hc
      have hlt := of_decide_eq_true hp
      rw [hall f hf] at hlt
      exact lt_irrefl 0 hlt
    rw [if_neg hno]

/-- Witness for C2: the all-zero clause applied at a concrete unversioned
group picks the first discovered file. -/
theorem C2_representative_selection_witness :
    selectRep ⟨ "old".data, "B.xlsx".data⟩ [⟨ "old".data, "C.xlsx".data⟩] =
      ⟨ "old".data, "B.xlsx".data⟩ :=
  C2_representative_selection.2.1 _ _ (by decide)

/-- Claim C3: the name normalizer removes the extension, then a trailing
version token together with everything after it, then — unconditionally and
independently of whether the version rule matched — a trailing copy marker
with everything after it, and finally trims whitespace; on the claim's
examples every variant of Report normalizes to Report. -/
theorem C3_name_normalizer :
    (∀ filename : List Char,
      extract_base_filename filename =
        pyStrip (subCopyAux (subVersionAux (stem filename)))) ∧
    extract_base_filename ( "Report_v2.06.xlsx".data) = ( "Report".data) ∧
    extract_base_filename ( "Report_v2.09 のコピー.xlsx".data) = ( "Report".data) ∧
    extract_base_filename ( "Report (1).xlsx".data) = ( "Report".data) ∧
    extract_base_filename ( "Report.xlsx".data) = ( "Report".data) :=
  ⟨fun _ => rfl, by decide, by decide, by decide, by decide⟩

/-- Counterexample to claim C4 as stated: with the same directory passed on
both sides and one file A.xlsx, the base name A is present in both groups —
so it is present on both sides, not only the old side — yet the pair is
suppressed by the identical-path rule and A.xlsx appears in both unmatched
lists, where the claim says the lists hold exactly the old-only
(respectively new-only) filenames. -/
theorem C4_unmatched_counterexample :
    (find_matching_file_pairs
        ⟨ true, true, "d".data, "d".data, [ "A.xlsx".data], [ "A.xlsx".data]⟩).2.1 =
      [ "A.xlsx".data] ∧
    (find_matching_file_pairs
        ⟨ true, true, "d".data, "d".data, [ "A.xlsx".data], [ "A.xlsx".data]⟩).2.2 =
      [ "A.xlsx".data] ∧
    (groupByBase ( "d".data) [ "A.xlsx".data]).map (fun g => g.1) = [ "A".data] := by
  refine ⟨by decide, by decide, by decide⟩

/-- Claim C4 as amended: a matched pair is emitted for every base name present
on both sides unless the two representatives resolve to the identical path,
and each unmatched list holds exactly the original filenames of the side's
base names for which no pair was emitted (present on one side only, or
suppressed by the identical-path rule), ordered by sorted base name and,
within one base name, by discovery order. -/
theorem C4_unmatched_amended (inp : MatchInput)
    (h1 : inp.oldDirExists = true) (h2 : inp.newDirExists = true) :
    find_matching_file_pairs inp =
      (pairsSpec (groupByBase inp.oldDir inp.oldNames) (groupByBase inp.newDir inp.newNames),
       unmatchedFilesSpec (groupByBase inp.oldDir inp.oldNames)
         (pairsSpec (groupByBase inp.oldDir inp.oldNames)
           (groupByBase inp.newDir inp.newNames)),
       unmatchedFilesSpec (groupByBase inp.newDir inp.newNames)
         (pairsSpec (groupByBase inp.oldDir inp.oldNames)
           (groupByBase inp.newDir inp.newNames))) := by
  unfold find_matching_file_pairs
  rw [if_neg (by simp [h1]), if_neg (by simp [h2]),
    pairsSpec_eq_pairsOf, unmatchedFilesSpec_eq, unmatchedFilesSpec_eq]

/-- Witness for the amended C4 at the counterexample input. -/
theorem C4_unmatched_amended_witness :
    find_matching_file_pairs
        ⟨ true, true, "d".data, "d".data, [ "A.xlsx".data], [ "A.xlsx".data]⟩ =
      (pairsSpec (groupByBase ( "d".data) [ "A.xlsx".data])
         (groupByBase ( "d".data) [ "A.xlsx".data]),
       unmatchedFilesSpec (groupByBase ( "d".data) [ "A.xlsx".data])
         (pairsSpec (groupByBase ( "d".data) [ "A.xlsx".data])
           (groupByBase ( "d".data) [ "A.xlsx".data])),
       unmatchedFilesSpec (groupByBase ( "d".data) [ "A.xlsx".data])
         (pairsSpec (groupByBase ( "d".data) [ "A.xlsx".data])
           (groupByBase ( "d".data) [ "A.xlsx".data]))) :=
  C4_unmatched_amended _ rfl rfl

/-- Claim C5: kind precedence.  For distinct strings, the kind reported by the
differ is replace exactly when a replace opcode is present; otherwise insert
exactly when an insert opcode is present; otherwise delete exactly when a
delete opcode is present; otherwise equal. -/
theorem C5_kind_precedence (old_text new_text : List Char) (h : old_text ≠ new_text) :
    ((find_char_differences old_text new_text).2 = DiffType.replace ↔
      (∃ op ∈ get_opcodes old_text new_text, op.tag = Tag.rep)) ∧
    ((find_char_differences old_text new_text).2 = DiffType.insert ↔
      (¬ (∃ op ∈ get_opcodes old_text new_text, op.tag = Tag.rep)) ∧
        ∃ op ∈ get_opcodes old_text new_text, op.tag = Tag.ins) ∧
    ((find_char_differences old_text new_text).2 = DiffType.delete ↔
      (¬ (∃ op ∈ get_opcodes old_text new_text, op.tag = Tag.rep)) ∧
        (¬ (∃ op ∈ get_opcodes old_text new_text, op.tag = Tag.ins)) ∧
        ∃ op ∈ get_opcodes old_text new_text, op.tag = Tag.del) ∧
    (((¬ (∃ op ∈ get_opcodes old_text new_text, op.tag = Tag.rep)) ∧
        (¬ (∃ op ∈ get_opcodes old_text new_text, op.tag = Tag.ins)) ∧
        (¬ (∃ op ∈ get_opcodes old_text new_text, op.tag = Tag.del))) →
      (find_char_differences old_text new_text).2 = DiffType.equal) := by
  have e1 : (((get_opcodes old_text new_text).any fun op => decide (op.tag = Tag.rep)) = true) ↔
      (∃ op ∈ get_opcodes old_text new_text, op.tag = Tag.rep) := by
    simp [List.any_eq_true]
  have e2 : (((get_opcodes old_text new_text).any fun op => decide (op.tag = Tag.ins)) = true) ↔
      (∃ op ∈ get_opcodes old_text new_text, op.tag = Tag.ins) := by
    simp [List.any_eq_true]
  have e3 : (((get_opcodes old_text new_text).any fun op => decide (op.tag = Tag.del)) = true) ↔
      (∃ op ∈ get_opcodes old_text new_text, op.tag = Tag.del) := by
    simp [List.any_eq_true]
  rw [find_char_differences_eq _ _ h]
  simp only [← e1, ← e2, ← e3]
  by_cases h1 : ((get_opcodes old_text new_text).any fun op => decide (op.tag = Tag.rep)) = true <;>
    by_cases h2 : ((get_opcodes old_text new_text).any fun op => decide (op.tag = Tag.ins)) = true <;>
    by_cases h3 : ((get_opcodes old_text new_text).any fun op => decide (op.tag = Tag.del)) = true <;>
    simp [h1, h2, h3]

/-- Witness for C5 at the concrete example of the claim: diff of cat and bat
is one replace span covering index 0 to 1. -/
theorem C5_kind_precedence_witness :
    ((find_char_differences ( "cat".data) ( "bat".data)).2 = DiffType.replace ↔
      (∃ op ∈ get_opcodes ( "cat".data) ( "bat".data), op.tag = Tag.rep)) ∧
    find_char_differences ( "cat".data) ( "bat".data) = ([(0, 1)], DiffType.replace) :=
  ⟨(C5_kind_precedence ( "cat".data) ( "bat".data) (by decide)).1, by decide⟩

/-- Claim C6: span content.  For distinct strings the spans returned by the
differ are exactly the new-string ranges of the insert and replace opcodes of
the alignment in left-to-right order; delete opcodes contribute no span. -/
theorem C6_span_content (old_text new_text : List Char) (h : old_text ≠ new_text) :
    (find_char_differences old_text new_text).1 =
      (get_opcodes old_text new_text).filterMap spanOf? := by
  rw [find_char_differences_eq _ _ h]

/-- Witness for C6 with the claim's concrete examples: deleting the trailing s
yields no spans and kind delete, appending it yields one span over the
appended character and kind insert. -/
theorem C6_span_content_witness :
    (find_char_differences ( "cats".data) ( "cat".data)).1 =
      (get_opcodes ( "cats".data) ( "cat".data)).filterMap spanOf? ∧
    find_char_differences ( "cats".data) ( "cat".data) = ([], DiffType.delete) ∧
    find_char_differences ( "cat".data) ( "cats".data) = ([(3, 4)], DiffType.insert) :=
  ⟨C6_span_content ( "cats".data) ( "cat".data) (by decide), by decide, by decide⟩

/-- Claim C7: empty-value handling of the change recorder.  A cell with both
texts empty is skipped with no record; a cell whose texts differ with empty
new text yields exactly one delete record with no styled-run annotation
attempted; a cell whose texts differ with non-empty new text yields a record
carrying the differ's reported kind. -/
theorem C7_change_recorder_empty (old_value new_value : List Char) :
    (old_value = [] → new_value = [] → recordCell old_value new_value = (none, false)) ∧
    (old_value ≠ new_value → new_value = [] → old_value ≠ [] →
      recordCell old_value new_value =
        (some ⟨ truncateValue old_value, truncateValue new_value, DiffType.delete⟩, false)) ∧
    (old_value ≠ new_value → new_value ≠ [] →
      recordCell old_value new_value =
        (some ⟨ truncateValue old_value, truncateValue new_value,
                (find_char_differences old_value new_value).2⟩, true)) := by
  refine ⟨fun h1 h2 => ?_, fun hne hn ho => ?_, fun hne hn => ?_⟩
  · unfold recordCell
    rw [if_pos ⟨h1, h2⟩]
  · unfold recordCell
    rw [if_neg (fun hc => ho hc.1), if_pos hne, if_neg (fun hc => hc hn)]
  · unfold recordCell
    rw [if_neg (fun hc => hn hc.2), if_pos hne, if_pos hn]

/-- Witness for C7 at the concrete cells of the claim. -/
theorem C7_change_recorder_empty_witness :
    recordCell [] [] = (none, false) ∧
    recordCell ( "x".data) [] =
      (some ⟨ truncateValue ( "x".data), truncateValue [], DiffType.delete⟩, false) ∧
    recordCell ( "a".data) ( "b".data) =
      (some ⟨ truncateValue ( "a".data), truncateValue ( "b".data),
              (find_char_differences ( "a".data) ( "b".data)).2⟩, true) :=
  ⟨(C7_change_recorder_empty [] []).1 rfl rfl,
   (C7_change_recorder_empty ( "x".data) []).2.1 (by decide) rfl (by decide),
   (C7_change_recorder_empty ( "a".data) ( "b".data)).2.2 (by decide) (by decide)⟩

/-- Claim C8: truncation.  A recorded value longer than 100 characters is
stored as exactly its first 100 characters followed by the truncation marker;
a value of length at most 100 is stored verbatim with no marker. -/
theorem C8_truncation (value : List Char) :
    (MAX_CELL_VALUE_LENGTH < value.length →
      truncateValue value = value.take MAX_CELL_VALUE_LENGTH ++ ( "...".data) ∧
      (value.take MAX_CELL_VALUE_LENGTH).length = MAX_CELL_VALUE_LENGTH) ∧
    (value.length ≤ MAX_CELL_VALUE_LENGTH → truncateValue value = value) := by
  constructor
  · intro h
    constructor
    · unfold truncateValue
      rw [if_pos h]
    · rw [List.length_take]
      exact Nat.min_eq_left (Nat.le_of_lt h)
  · intro h
    unfold truncateValue
    rw [if_neg (not_lt.mpr h), List.append_nil, List.take_of_length_le h]

/-- Witness for C8: a 150-character value stores as 100 characters plus the
marker; a short value stores verbatim. -/
theorem C8_truncation_witness :
    (truncateValue (List.replicate 150 'a') =
        (List.replicate 150 'a').take MAX_CELL_VALUE_LENGTH ++ ( "...".data) ∧
      ((List.replicate 150 'a').take MAX_CELL_VALUE_LENGTH).length = MAX_CELL_VALUE_LENGTH) ∧
    truncateValue ( "ok".data) = ( "ok".data) :=
  ⟨(C8_truncation (List.replicate 150 'a')).1 (by decide),
   (C8_truncation ( "ok".data)).2 (by decide)⟩

/-- Claim C9: a missing input directory makes the pair-matching operation
return empty results instead of raising. -/
theorem C9_directory_not_found (inp : MatchInput)
    (h : inp.oldDirExists = false ∨ inp.newDirExists = false) :
    find_matching_file_pairs inp = ([], [], []) := by
  unfold find_matching_file_pairs
  rcases h with h | h
  · rw [if_pos h]
  · by_cases ho : inp.oldDirExists = false
    · rw [if_pos ho]
    · rw [if_neg ho, if_pos h]

/-- Witness for C9 with a missing old directory. -/
theorem C9_directory_not_found_witness :
    find_matching_file_pairs ⟨ false, true, [], [], [], []⟩ = ([], [], []) :=
  C9_directory_not_found _ (Or.inl rfl)

/-- Claim C10: log invariant.  The differ reports equal, with empty spans,
exactly for identical inputs, so every change record produced by the per-cell
recorder carries kind insert, delete, or replace — never equal. -/
theorem C10_log_invariant (old_text new_text : List Char) :
    ((find_char_differences old_text new_text).2 = DiffType.equal ↔ old_text = new_text) ∧
    (old_text = new_text → (find_char_differences old_text new_text).1 = []) ∧
    (∀ r : ChangeRecord, (recordCell old_text new_text).1 = some r →
      r.type ≠ DiffType.equal) := by
  refine ⟨⟨fun hk => ?_, fun he => by simp [find_char_differences, he]⟩,
    fun he => by simp [find_char_differences, he], ?_⟩
  · by_contra hne
    exact diff_kind_ne_equal _ _ hne hk
  · intro r hr
    unfold recordCell at hr
    split at hr
    · simp at hr
    · rename_i hboth
      split at hr
      · rename_i hne
        split at hr
        · simp only [Option.some.injEq] at hr
          subst hr
          exact diff_kind_ne_equal _ _ hne
        · simp only [Option.some.injEq] at hr
          subst hr
          intro hc
          simp at hc
      · simp at hr

/-- Witness for C10: identical strings give kind equal with empty spans, and
the delete record of a cleared cell is not an equal record. -/
theorem C10_log_invariant_witness :
    (find_char_differences ( "x".data) ( "x".data)).2 = DiffType.equal ∧
    (find_char_differences ( "x".data) ( "x".data)).1 = [] ∧
    DiffType.delete ≠ DiffType.equal :=
  ⟨(C10_log_invariant ( "x".data) ( "x".data)).1.mpr rfl,
   (C10_log_invariant ( "x".data) ( "x".data)).2.1 rfl,
   (C10_log_invariant ( "x".data) []).2.2 ⟨ "x".data, [], DiffType.delete⟩ (by decide)⟩

